import Mathlib

/-!
A verification development for the MagiskFrida release-automation tool.

The Python sources (`util.py`, `main.py`, `build.py`) are shallowly embedded:
pure string/version manipulation becomes Lean functions over `String` /
`List Char`, Python exceptions become `Option`/`Except` `none`/`error`
results, and the filesystem/subprocess effects of the build orchestrator and
of `main` become explicit state records.  Machine integers do not occur
(Python integers are unbounded), so `Nat` is used directly.
-/

/- ================= util.py : version helpers ================= -/

/-- Embeds `util.strip_revision`: `tag.split('-', 1)[0]`, i.e. the prefix of
the string up to (excluding) the first `'-'`, or the whole string when no
`'-'` occurs.  `split('-', 1)[0]` is exactly the longest `'-'`-free prefix,
which is `takeWhile (· != '-')`. -/
def strip_revision (tag : String) : String :=
  String.mk (tag.data.takeWhile fun c => c != '-')

/-- Splitting a character list at every separator character (those satisfying
`p`), keeping empty pieces, as Python `re.split` does for a single-character
class such as `[.-]`.  The result always has at least one piece. -/
def pySplit (p : Char → Bool) : List Char → List (List Char)
  | [] => [[]]
  | c :: cs =>
    if p c then [] :: pySplit p cs
    else
      match pySplit p cs with
      | [] => [[c]]
      | piece :: rest => (c :: piece) :: rest

/-- The separator class `[\.-]` of `util.sort_tags` / `[-.]` of
`build.generate_version_code`: a dot or a dash. -/
def isSepChar (c : Char) : Bool := c == '.' || c == '-'

/-- Embeds Python `int(...)` applied to a piece of a version string, at the
`List Char` level (mirroring core `String.toNat?`).  A nonempty all-digit
piece parses to its decimal value; anything else raises `ValueError`,
modelled as `none`.  (Python `int` also accepts signs, whitespace and
underscores; none of these can occur in a dot/dash-separated piece of a
version tag, which is the only context in which the sources call `int`.) -/
def pyIntChars (l : List Char) : Option Nat :=
  if !l.isEmpty && l.all (fun c => c.isDigit) then
    some (l.foldl (fun n c => n * 10 + (c.toNat - '0'.toNat)) 0)
  else none

/-- The sort key of `util.sort_tags`:
`list(map(int, re.split(r"[\.-]", s)))`.  `none` models the `ValueError`
raised on a non-numeric component. -/
def tagKey (s : String) : Option (List Nat) :=
  (pySplit isSepChar s.data).mapM pyIntChars

/-- Python's `<=` on lists of integers: lexicographic comparison,
left-to-right, a strict prefix comparing smaller.  This is the (total,
transitive, reflexive) order by which `list.sort(key=...)` orders the keys. -/
def keyLE : List Nat → List Nat → Bool
  | [], _ => true
  | _ :: _, [] => false
  | a :: as, b :: bs => if a < b then true else if b < a then false else keyLE as bs

/-- The sort relation of `util.sort_tags` on (tag, key) pairs. -/
def pairLE (a b : String × List Nat) : Prop := keyLE a.2 b.2 = true

instance : DecidableRel pairLE := fun a b =>
  inferInstanceAs (Decidable (keyLE a.2 b.2 = true))

/-- Embeds `util.sort_tags`: CPython's `list.sort(key=f)` first computes
`f(x)` for every element (raising `ValueError`, here `none`, if any key is
malformed) and then stably sorts the decorated list by the keys.  A stable
comparison sort is extensionally unique, so the stable
`List.insertionSort` produces exactly the list Timsort produces. -/
def sort_tags (tags : List String) : Option (List String) :=
  (tags.mapM fun t => (tagKey t).map fun k => (t, k)).map fun pairs =>
    (pairs.insertionSort pairLE).map Prod.fst

/-- Embeds `util.get_last_tag`, with the `git tag -l <patterns>` invocation
modelled by its result: the recorded tags (`tags`) filtered by the patterns.
`fnmatch` patterns are modelled as literal equality, which is exact for
version-tag strings (they contain no glob metacharacters).  An empty pattern
list lists every tag.  `none` models the `ValueError` that
`sort_tags` can raise; the subprocess layer itself is modelled separately
(see `exec_git_command` below). -/
def get_last_tag (tags : List String) (filter_args : List String) : Option String :=
  let matched := if filter_args.isEmpty then tags
                 else tags.filter fun t => filter_args.contains t
  if matched.length < 1 then some ""
  else (sort_tags matched).map fun sorted => sorted.getLastD ""

/-- The loop body of `util.get_next_revision`.  The Python loop
`while True: ...; i += 1` carries no fuel; the embedding adds explicit fuel
and `get_next_revision` below instantiates it with `tags.length + 1`, which
is proved sufficient (`get_next_revision_spec`): the candidate tags are
pairwise distinct, so among `tags.length + 1` of them one is free.  `none`
therefore only ever reports a propagated `ValueError` from `get_last_tag`,
never fuel exhaustion. -/
def get_next_revision_loop (tags : List String) (current_tag : String) :
    Nat → Nat → Option String
  | _, 0 => none
  | i, fuel + 1 =>
    let new_tag := current_tag ++ "-" ++ Nat.repr i
    match get_last_tag tags [new_tag] with
    | none => none
    | some s =>
      if s = "" then some new_tag
      else get_next_revision_loop tags current_tag (i + 1) fuel

/-- Embeds `util.get_next_revision`: probe `current_tag-1`, `current_tag-2`,
... until `get_last_tag` reports the candidate unused. -/
def get_next_revision (tags : List String) (current_tag : String) : Option String :=
  get_next_revision_loop tags current_tag 1 (tags.length + 1)

/- ================= util.py : subprocess layer ================= -/

/-- The fields of `subprocess.run(...)`'s result that `exec_git_command`
can observe: the exit code and the captured standard output (modelled
already decoded). -/
structure CompletedProcess where
  returncode : Int
  stdout : String

/-- An abstract `git` launcher: `error` models an exception raised by
`subprocess.run` itself (say, the binary missing), `ok` a process that ran
to completion with the given exit code and output. -/
def GitRunner : Type := List String → Except String CompletedProcess

/-- Embeds `util.exec_git_command`:
`subprocess.run(["git"] + args, capture_output=True).stdout` followed by
`.decode()`.  Note that the exit code of the completed process is read
nowhere: only `stdout` survives. -/
def exec_git_command (run : GitRunner) (command_with_args : List String) :
    Except String String :=
  (run command_with_args).map CompletedProcess.stdout

/-- Python `str.splitlines` for LF-separated text (the only separator `git`
emits): split at every newline and drop a trailing empty piece, so that
`""` gives `[]` and `"a\nb\n"` gives `["a", "b"]`. -/
def pySplitlines (s : String) : List String :=
  let pieces := (pySplit (fun c => c == '\n') s.data).map String.mk
  if pieces.getLast? = some "" then pieces.dropLast else pieces

/-- Embeds `util.get_last_tag` down to the subprocess layer (for the
error-propagation analysis): run `git tag -l <filter_args>`, split the
captured output into lines, and take the maximum under `sort_tags`.
`Except.error` carries either the launcher's exception or the
`ValueError` of `sort_tags`. -/
def get_last_tag_exec (run : GitRunner) (filter_args : List String) :
    Except String String :=
  match exec_git_command run (["tag", "-l"] ++ filter_args) with
  | Except.error e => Except.error e
  | Except.ok out =>
    let tags := pySplitlines out
    if tags.length < 1 then Except.ok ""
    else
      match sort_tags tags with
      | none => Except.error "ValueError"
      | some sorted => Except.ok (sorted.getLastD "")

/- ================= main.py ================= -/

/-- The observable outcome of one run of `main`'s decision phase: the two
locals `needs_update` and `new_project_tag`, and the content of
`NEW_TAG.txt` when it was written (`none` when the file was left untouched).
Writing that marker file is the decision phase's only filesystem effect. -/
structure MainRun where
  needs_update : Bool
  new_project_tag : String
  marker_file : Option String
  deriving DecidableEq

/-- Embeds the decision phase of `main.main` (`main.py` lines 14-47):
`needs_update = last_frida_tag != strip_revision(last_project_tag)`;
when `needs_update or force_release`, compute
`get_next_revision(last_frida_tag)` against the local tags and write it to
`NEW_TAG.txt`; otherwise keep the sentinel `"0"` and write nothing.
The outer `Option` propagates an exception from `get_next_revision`. -/
def mainRun (localTags : List String) (last_frida_tag last_project_tag : String)
    (force_release : Bool) : Option MainRun :=
  let needs_update := last_frida_tag != strip_revision last_project_tag
  if needs_update || force_release then
    (get_next_revision localTags last_frida_tag).map fun nt =>
      { needs_update := needs_update, new_project_tag := nt, marker_file := some nt }
  else
    some { needs_update := needs_update, new_project_tag := "0", marker_file := none }

/- ================= build.py ================= -/

/-- Python `f"{n:02d}"` for a natural number: the decimal representation,
left-padded with `'0'` to a minimum width of 2 (never truncated). -/
def pad2 (n : Nat) : List Char :=
  if (Nat.repr n).data.length < 2 then '0' :: (Nat.repr n).data else (Nat.repr n).data

/-- Embeds `build.generate_version_code`: split the tag on `[-.]`, format
every component with `f"{int(part):02d}"`, join, and parse the joined string
with `int`.  `none` models the `ValueError` on a non-numeric component. -/
def generate_version_code (project_tag : String) : Option Nat :=
  ((pySplit isSepChar project_tag.data).mapM pyIntChars).bind fun parts =>
    pyIntChars (parts.foldl (fun acc n => acc ++ pad2 n) [])

/-- Outcome of one per-architecture `build.fill_module` task: it either
succeeds, or raises while downloading (nothing placed), or raises while
extracting (the downloaded archive is already in the cache). -/
inductive FillResult where
  | ok : FillResult
  | downloadFailed : String → FillResult
  | extractFailed : String → FillResult
  deriving DecidableEq

/-- The exception carried by a failed fill task, if any. -/
def fillErr : FillResult → Option String
  | FillResult.ok => none
  | FillResult.downloadFailed m => some m
  | FillResult.extractFailed m => some m

/-- The slice of the filesystem that `build.do_build` manipulates:
the two output directories, the staging tree `build/tmp` (its existence,
the per-architecture `frida-server-<arch>` files placed under it, and the
stamped `module.prop` version/versionCode), the download cache, the packaged
zips in `build/`, and the `updater.json` document (version/versionCode). -/
structure BuildFS where
  downloadsDirExists : Bool
  buildDirExists : Bool
  tmpExists : Bool
  stagedServers : List String
  modulePropStamp : Option (String × Nat)
  cachedArchives : List String
  packagedZips : List String
  updaterJson : Option (String × Nat)
  deriving DecidableEq

/-- The fixed architecture list of `build.do_build`. -/
def archs : List String := ["arm", "arm64", "x86", "x86_64"]

/-- Filesystem effect of one `build.fill_module` task for `arch`:
on success the architecture's compressed server lands in the download cache
(if not already there) and the extracted server is placed in the staging
tree; a download failure leaves both untouched (`download_file` writes only
after a successful request); an extraction failure leaves the downloaded
archive cached but places nothing. -/
def fill_module (fs : BuildFS) (arch : String) (res : FillResult) : BuildFS :=
  match res with
  | FillResult.ok =>
    { fs with cachedArchives := fs.cachedArchives.insert arch,
              stagedServers := fs.stagedServers.insert arch }
  | FillResult.downloadFailed _ => fs
  | FillResult.extractFailed _ =>
    { fs with cachedArchives := fs.cachedArchives.insert arch }

/-- The `concurrent.futures.as_completed` scan of `build.do_build`: walk the
futures in completion order and surface the first failure found. -/
def firstFailure (outcomes : String → FillResult) : List String → Option String
  | [] => none
  | a :: rest =>
    match fillErr (outcomes a) with
    | some m => some m
    | none => firstFailure outcomes rest

/-- Embeds `build.do_build`.  `outcomes` abstracts how each architecture's
fill task fares; `completionOrder` is the order in which the futures
complete (any permutation of `archs` — the scheduler decides).  Steps, as in
the source: create the output directories; reset the staging tree and stamp
`module.prop` (whose `generate_version_code` can raise, aborting before any
task runs); run all four tasks (the pool runs every submitted task to
completion, so every task's filesystem effect lands even when another task
failed); then scan the futures in completion order, re-raising the first
failure; only if none failed, package the zip, remove the staging tree, and
write `updater.json`. -/
def do_build (outcomes : String → FillResult) (completionOrder : List String)
    (project_tag : String) (fs : BuildFS) : BuildFS × Option String :=
  let fs1 := { fs with downloadsDirExists := true, buildDirExists := true }
  match generate_version_code project_tag with
  | none =>
    ({ fs1 with tmpExists := true, stagedServers := [], modulePropStamp := none },
     some "ValueError")
  | some code =>
    let fs2 := { fs1 with tmpExists := true, stagedServers := [],
                          modulePropStamp := some (project_tag, code) }
    let fs3 := archs.foldl (fun s a => fill_module s a (outcomes a)) fs2
    match firstFailure outcomes completionOrder with
    | some m => (fs3, some m)
    | none =>
      let fs4 := { fs3 with
        packagedZips := fs3.packagedZips.insert ("MagiskFrida-" ++ project_tag ++ ".zip"),
        tmpExists := false }
      ({ fs4 with updaterJson := some (project_tag, code) }, none)

/- ================= decimal representation theory ================= -/

/-- Reference description of the decimal digit string of a natural number,
used to reason about core's fuelled `Nat.toDigitsCore`. -/
def natDigits (n : Nat) : List Char :=
  if h : n < 10 then [Nat.digitChar n]
  else natDigits (n / 10) ++ [Nat.digitChar (n % 10)]
decreasing_by exact Nat.div_lt_self (by omega) (by omega)

theorem natDigits_toDigitsCore :
    ∀ (fuel : Nat), ∀ (n : Nat) (ds : List Char), 0 < fuel → n < 10 ^ fuel →
      Nat.toDigitsCore 10 fuel n ds = natDigits n ++ ds := by
  intro fuel
  induction fuel with
  | zero => intro n ds h _; omega
  | succ f ih =>
    intro n ds _ hlt
    by_cases hz : n / 10 = 0
    · have hten : n < 10 := by omega
      rw [natDigits]
      simp only [Nat.toDigitsCore, hz, if_pos, hten, dif_pos]
      rw [Nat.mod_eq_of_lt hten]
      rfl
    · have hten : ¬ n < 10 := by omega
      have hfpos : 0 < f := by
        rcases Nat.eq_zero_or_pos f with hf | hf
        · subst hf; simp at hlt; omega
        · exact hf
      rw [natDigits]
      simp only [Nat.toDigitsCore, hz, if_neg, hten, dif_neg, not_false_iff]
      rw [ih (n / 10) (Nat.digitChar (n % 10) :: ds) hfpos
        (Nat.nat_repr_len_aux n 10 f (by omega) hlt)]
      simp

theorem repr_data (n : Nat) : (Nat.repr n).data = natDigits n := by
  have h1 : n < 10 ^ (n + 1) := by
    calc n < 10 ^ n := Nat.lt_pow_self (by omega) n
    _ ≤ 10 ^ (n + 1) := Nat.pow_le_pow_right (by omega) (Nat.le_succ n)
  have h2 : Nat.toDigitsCore 10 (n + 1) n [] = natDigits n ++ [] :=
    natDigits_toDigitsCore (n + 1) n [] (Nat.succ_pos n) h1
  simpa [Nat.repr, Nat.toDigits, List.asString] using h2

theorem digitChar_val : ∀ m : Nat, m < 10 →
    (Nat.digitChar m).toNat - 48 = m := by decide

theorem digitChar_isDigit : ∀ m : Nat, m < 10 →
    (Nat.digitChar m).isDigit = true := by decide

theorem natDigits_all_isDigit (n : Nat) : ∀ c ∈ natDigits n, c.isDigit = true := by
  induction n using natDigits.induct with
  | case1 n h =>
    rw [natDigits, dif_pos h]
    intro c hc
    rw [List.mem_singleton] at hc
    subst hc
    exact digitChar_isDigit n h
  | case2 n h ih =>
    rw [natDigits, dif_neg h]
    intro c hc
    rcases List.mem_append.1 hc with h1 | h1
    · exact ih c h1
    · rw [List.mem_singleton] at h1
      subst h1
      exact digitChar_isDigit (n % 10) (Nat.mod_lt n (by omega))

theorem natDigits_ne_nil (n : Nat) : natDigits n ≠ [] := by
  rw [natDigits]
  split
  · simp
  · simp

theorem natDigits_foldl (n : Nat) : ∀ a : Nat,
    (natDigits n).foldl (fun m c => m * 10 + (c.toNat - '0'.toNat)) a =
      a * 10 ^ (natDigits n).length + n := by
  induction n using natDigits.induct with
  | case1 n h =>
    intro a
    rw [natDigits, dif_pos h]
    have h0 : '0'.toNat = 48 := rfl
    simp only [List.foldl, List.length_cons, List.length_nil, pow_zero, pow_one, h0]
    have hv := digitChar_val n h
    omega
  | case2 n h ih =>
    intro a
    rw [natDigits, dif_neg h]
    rw [List.foldl_append, ih a]
    have h0 : '0'.toNat = 48 := rfl
    have hmod : (Nat.digitChar (n % 10)).toNat - 48 = n % 10 :=
      digitChar_val (n % 10) (Nat.mod_lt n (by omega))
    simp only [List.foldl, List.length_append, List.length_singleton, h0, hmod]
    have : 10 ^ ((natDigits (n / 10)).length + 1) = 10 ^ (natDigits (n / 10)).length * 10 :=
      pow_succ 10 _
    rw [this]
    have := Nat.div_add_mod n 10
    ring_nf
    omega

theorem natDigits_val (n : Nat) :
    (natDigits n).foldl (fun m c => m * 10 + (c.toNat - '0'.toNat)) 0 = n := by
  simpa using natDigits_foldl n 0

theorem natDigits_inj {m n : Nat} (h : natDigits m = natDigits n) : m = n := by
  have hm := natDigits_val m
  rw [h, natDigits_val n] at hm
  omega

theorem repr_inj {m n : Nat} (h : Nat.repr m = Nat.repr n) : m = n :=
  natDigits_inj (by rw [← repr_data, ← repr_data, h])

theorem pyIntChars_natDigits (n : Nat) : pyIntChars (natDigits n) = some n := by
  unfold pyIntChars
  rw [if_pos]
  · rw [natDigits_val]
  · rw [Bool.and_eq_true]
    refine ⟨?_, ?_⟩
    · simp [List.isEmpty_iff, natDigits_ne_nil n]
    · rw [List.all_eq_true]
      exact natDigits_all_isDigit n

theorem natDigits_length_pos (n : Nat) : 0 < (natDigits n).length := by
  cases h : natDigits n with
  | nil => exact absurd h (natDigits_ne_nil n)
  | cons c cs => simp

theorem natDigits_length_lt_ten {n : Nat} (h : n < 10) : (natDigits n).length = 1 := by
  rw [natDigits, dif_pos h]
  rfl

theorem natDigits_length_lt_hundred {n : Nat} (h1 : 10 ≤ n) (h2 : n < 100) :
    (natDigits n).length = 2 := by
  rw [natDigits, dif_neg (by omega)]
  have : n / 10 < 10 := by omega
  simp [natDigits_length_lt_ten this]

/- ================= splitting lemmas ================= -/

theorem pySplit_ne_nil (p : Char → Bool) (l : List Char) : pySplit p l ≠ [] := by
  cases l with
  | nil => simp [pySplit]
  | cons c cs =>
    unfold pySplit
    split
    · simp
    · cases h : pySplit p cs <;> simp

theorem pySplit_sepFree (p : Char → Bool) (l : List Char)
    (h : ∀ c ∈ l, p c = false) : pySplit p l = [l] := by
  induction l with
  | nil => rfl
  | cons c cs ih =>
    unfold pySplit
    rw [if_neg (by simp [h c (List.mem_cons_self c cs)])]
    rw [ih fun d hd => h d (List.mem_cons_of_mem c hd)]

theorem pySplit_cons_pos (p : Char → Bool) (c : Char) (cs : List Char)
    (h : p c = true) : pySplit p (c :: cs) = [] :: pySplit p cs := by
  simp [pySplit, h]

theorem pySplit_cons_neg (p : Char → Bool) (c : Char) (cs : List Char)
    (h : p c = false) (q : List Char) (qs : List (List Char))
    (hq : pySplit p cs = q :: qs) : pySplit p (c :: cs) = (c :: q) :: qs := by
  simp [pySplit, h, hq]

theorem pySplit_append_sep (p : Char → Bool) (sep : Char) (hs : p sep = true)
    (ds : List Char) (hd : ∀ c ∈ ds, p c = false) :
    ∀ x : List Char, pySplit p (x ++ sep :: ds) = pySplit p x ++ [ds] := by
  intro x
  induction x with
  | nil =>
    simp only [List.nil_append]
    rw [pySplit_cons_pos p sep ds hs, pySplit_sepFree p ds hd]
    rfl
  | cons c cs ih =>
    rw [List.cons_append]
    cases hc : p c with
    | true =>
      rw [pySplit_cons_pos p c _ hc, pySplit_cons_pos p c cs hc, ih]
      rfl
    | false =>
      obtain ⟨q, qs, hq⟩ : ∃ q qs, pySplit p cs = q :: qs := by
        cases h : pySplit p cs with
        | nil => exact absurd h (pySplit_ne_nil p cs)
        | cons q qs => exact ⟨q, qs, rfl⟩
      have hq2 : pySplit p (cs ++ sep :: ds) = q :: (qs ++ [ds]) := by
        rw [ih, hq]
        rfl
      rw [pySplit_cons_neg p c _ hc q (qs ++ [ds]) hq2,
          pySplit_cons_neg p c cs hc q qs hq]
      rfl

theorem isDigit_not_sep {c : Char} (h : c.isDigit = true) : isSepChar c = false := by
  unfold isSepChar
  rw [Bool.or_eq_false_iff]
  refine ⟨?_, ?_⟩
  · rw [beq_eq_false_iff_ne]
    intro he
    subst he
    simp [Char.isDigit] at h
  · rw [beq_eq_false_iff_ne]
    intro he
    subst he
    simp [Char.isDigit] at h

theorem tagKey_append_repr (s : String) (i : Nat) :
    tagKey (s ++ "-" ++ Nat.repr i) = (tagKey s).map fun k => k ++ [i] := by
  unfold tagKey
  have hdata : (s ++ "-" ++ Nat.repr i).data = s.data ++ '-' :: (Nat.repr i).data := by
    rw [String.data_append, String.data_append, List.append_assoc]
    rfl
  rw [hdata, repr_data]
  rw [pySplit_append_sep isSepChar '-' (by decide) (natDigits i)
    (fun c hc => isDigit_not_sep (natDigits_all_isDigit i c hc)) s.data]
  rw [List.mapM_append]
  have h1 : List.mapM pyIntChars [natDigits i] = some [i] := by
    rw [List.mapM_cons, List.mapM_nil, pyIntChars_natDigits i]
    rfl
  rw [h1]
  cases hk : (pySplit isSepChar s.data).mapM pyIntChars with
  | none => rfl
  | some ks => rfl

/-- A candidate revision tag is never the empty string. -/
theorem candidate_ne_empty (s : String) (i : Nat) : s ++ "-" ++ Nat.repr i ≠ "" := by
  intro h
  have := congrArg String.data h
  rw [String.data_append, String.data_append] at this
  simp at this

/-- Distinct revision numbers give distinct candidate tags. -/
theorem candidate_inj {s : String} {i j : Nat}
    (h : s ++ "-" ++ Nat.repr i = s ++ "-" ++ Nat.repr j) : i = j := by
  have hd := congrArg String.data h
  rw [String.data_append, String.data_append, String.data_append, String.data_append]
    at hd
  have hrepr : (Nat.repr i).data = (Nat.repr j).data := List.append_cancel_left hd
  rw [repr_data, repr_data] at hrepr
  exact natDigits_inj hrepr

/- ================= key order lemmas ================= -/

theorem keyLE_total : ∀ a b : List Nat, keyLE a b = true ∨ keyLE b a = true := by
  intro a
  induction a with
  | nil => intro b; left; rfl
  | cons x xs ih =>
    intro b
    cases b with
    | nil => right; rfl
    | cons y ys =>
      unfold keyLE
      rcases Nat.lt_trichotomy x y with h | h | h
      · left; rw [if_pos h]
      · subst h
        simp only [lt_irrefl, if_neg, not_false_iff, if_false]
        exact ih ys
      · right; rw [if_pos h]

theorem keyLE_trans : ∀ a b c : List Nat,
    keyLE a b = true → keyLE b c = true → keyLE a c = true := by
  intro a
  induction a with
  | nil => intro b c _ _; rfl
  | cons x xs ih =>
    intro b c hab hbc
    cases b with
    | nil => exact absurd hab (by simp [keyLE])
    | cons y ys =>
      cases c with
      | nil => exact absurd hbc (by simp [keyLE])
      | cons z zs =>
        unfold keyLE at hab hbc ⊢
        rcases Nat.lt_trichotomy x y with h1 | h1 | h1
        · rcases Nat.lt_trichotomy y z with h2 | h2 | h2
          · rw [if_pos (h1.trans h2)]
          · subst h2; rw [if_pos h1]
          · rw [if_pos h2] at hbc
            rw [if_neg (by omega)] at hbc
            exact absurd hbc (by simp)
        · subst h1
          rw [if_neg (lt_irrefl x), if_neg (lt_irrefl x)] at hab
          rcases Nat.lt_trichotomy x z with h2 | h2 | h2
          · rw [if_pos h2]
          · subst h2
            rw [if_neg (lt_irrefl x), if_neg (lt_irrefl x)] at hbc ⊢
            exact ih ys zs hab hbc
          · rw [if_neg (by omega), if_pos h2] at hbc
            exact absurd hbc (by simp)
        · rw [if_neg (by omega), if_pos h1] at hab
          exact absurd hab (by simp)

instance : IsTotal (String × List Nat) pairLE :=
  ⟨fun a b => keyLE_total a.2 b.2⟩

instance : IsTrans (String × List Nat) pairLE :=
  ⟨fun a b c => keyLE_trans a.2 b.2 c.2⟩

/- ================= sort_tags / get_last_tag lemmas ================= -/

/-- When the decoration pass of `sort_tags` succeeds, the decorated list
projects back to the input and every pair carries its tag's key. -/
theorem mapM_pairs_fst : ∀ (l : List String) (pairs : List (String × List Nat)),
    (l.mapM fun t => (tagKey t).map fun k => (t, k)) = some pairs →
    pairs.map Prod.fst = l ∧ ∀ pr ∈ pairs, tagKey pr.1 = some pr.2 := by
  intro l
  induction l with
  | nil =>
    intro pairs h
    rw [List.mapM_nil] at h
    cases h
    exact ⟨rfl, by intro pr hpr; cases hpr⟩
  | cons t ts ih =>
    intro pairs h
    rw [List.mapM_cons] at h
    cases hk : tagKey t with
    | none => rw [hk] at h; cases h
    | some k =>
      rw [hk] at h
      cases hrest : ts.mapM fun t => (tagKey t).map fun k => (t, k) with
      | none => rw [hrest] at h; cases h
      | some rest =>
        rw [hrest] at h
        cases h
        obtain ⟨h1, h2⟩ := ih rest hrest
        refine ⟨by rw [List.map_cons, h1], ?_⟩
        intro pr hpr
        rcases List.mem_cons.1 hpr with hpr | hpr
        · subst hpr; exact hk
        · exact h2 pr hpr

/-- When every tag has a well-formed key, the decoration pass succeeds. -/
theorem mapM_pairs_total : ∀ (l : List String),
    (∀ t ∈ l, (tagKey t).isSome) →
    ∃ pairs, (l.mapM fun t => (tagKey t).map fun k => (t, k)) = some pairs := by
  intro l
  induction l with
  | nil => intro _; exact ⟨[], rfl⟩
  | cons t ts ih =>
    intro h
    obtain ⟨k, hk⟩ := Option.isSome_iff_exists.1 (h t (List.mem_cons_self t ts))
    obtain ⟨rest, hrest⟩ := ih fun u hu => h u (List.mem_cons_of_mem t hu)
    exact ⟨(t, k) :: rest, by rw [List.mapM_cons, hk, hrest]; rfl⟩

theorem getLastD_mem (l : List String) (d : String) (h : l ≠ []) :
    l.getLastD d ∈ l := by
  cases l with
  | nil => exact absurd rfl h
  | cons a as =>
    rw [List.getLastD_cons]
    exact List.getLastD_mem_cons as a

/-- `get_last_tag` with a single (exact-match) pattern that matches nothing
reports the empty string. -/
theorem get_last_tag_not_mem (tags : List String) (c : String) (h : c ∉ tags) :
    get_last_tag tags [c] = some "" := by
  unfold get_last_tag
  have hf : (tags.filter fun t => List.contains [c] t) = [] := by
    rw [List.filter_eq_nil_iff]
    intro a ha hc
    rw [List.contains_eq_any_beq] at hc
    simp only [List.any_cons, List.any_nil, Bool.or_false] at hc
    rw [beq_iff_eq] at hc
    subst hc
    exact h ha
  simp only [List.isEmpty_cons, hf]
  rfl

/-- `get_last_tag` with a single pattern equal to a recorded nonempty tag
either raises the `ValueError` of the sort or reports that tag itself. -/
theorem get_last_tag_mem_cases (tags : List String) (c : String)
    (hmem : c ∈ tags) :
    (sort_tags (tags.filter fun t => List.contains [c] t) = none ∧
      get_last_tag tags [c] = none) ∨
    get_last_tag tags [c] = some c := by
  unfold get_last_tag
  set matched := tags.filter fun t => List.contains [c] t with hmdef
  have hcm : c ∈ matched := by
    rw [hmdef, List.mem_filter]
    refine ⟨hmem, ?_⟩
    rw [List.contains_eq_any_beq]
    simp
  have hall : ∀ t ∈ matched, t = c := by
    intro t ht
    rw [hmdef, List.mem_filter] at ht
    have := ht.2
    rw [List.contains_eq_any_beq] at this
    simp only [List.any_cons, List.any_nil, Bool.or_false] at this
    exact beq_iff_eq.1 this
  have hlen : ¬ matched.length < 1 := by
    have : 0 < matched.length := List.length_pos_of_mem hcm
    omega
  have hsel : (if ([c] : List String).isEmpty = true then tags else matched) = matched :=
    rfl
  rw [hsel, if_neg hlen]
  cases hs : sort_tags matched with
  | none => exact Or.inl ⟨by rw [← hs], rfl⟩
  | some sorted =>
    right
    show some (sorted.getLastD "") = some c
    unfold sort_tags at hs
    cases hp : matched.mapM fun t => (tagKey t).map fun k => (t, k) with
    | none => rw [hp] at hs; cases hs
    | some pairs =>
      rw [hp] at hs
      have hs2 : (pairs.insertionSort pairLE).map Prod.fst = sorted := Option.some.inj hs
      obtain ⟨hfst, _⟩ := mapM_pairs_fst matched pairs hp
      have hsne : sorted ≠ [] := by
        intro hnil
        rw [← hs2] at hnil
        have : pairs = [] := by
          have hperm := List.perm_insertionSort pairLE pairs
          have : (pairs.insertionSort pairLE) = [] := List.map_eq_nil_iff.1 hnil
          rw [this] at hperm
          exact (List.Perm.nil_eq hperm).symm
        rw [this] at hfst
        rw [← hfst] at hcm
        cases hcm
      have hmemc : sorted.getLastD "" ∈ sorted := getLastD_mem sorted "" hsne
      have : sorted.getLastD "" = c := by
        have hmem2 : sorted.getLastD "" ∈ matched := by
          rw [← hs2] at hmemc
          obtain ⟨pr, hpr, hpr2⟩ := List.mem_map.1 hmemc
          have : pr ∈ pairs := (List.mem_insertionSort pairLE).1 hpr
          have : pr.1 ∈ matched := by
            rw [← hfst]
            exact List.mem_map_of_mem Prod.fst this
          rw [hpr2] at this
          rwa [hs2] at this
        exact hall _ hmem2
      rw [this]

/-- Every element surviving the single-pattern filter is the pattern itself. -/
theorem filter_single_all (tags : List String) (c t : String)
    (ht : t ∈ tags.filter fun u => List.contains [c] u) : t = c := by
  rw [List.mem_filter] at ht
  have := ht.2
  rw [List.contains_eq_any_beq] at this
  simp only [List.any_cons, List.any_nil, Bool.or_false] at this
  exact beq_iff_eq.1 this

/-- With well-formed keys throughout, `sort_tags` cannot raise. -/
theorem sort_tags_isSome (l : List String) (h : ∀ t ∈ l, (tagKey t).isSome) :
    sort_tags l ≠ none := by
  obtain ⟨pairs, hp⟩ := mapM_pairs_total l h
  unfold sort_tags
  rw [hp]
  simp

/-- `get_last_tag` with a single pattern matching a recorded tag whose key is
well-formed reports that tag. -/
theorem get_last_tag_mem (tags : List String) (c : String) (k : List Nat)
    (hmem : c ∈ tags) (hk : tagKey c = some k) :
    get_last_tag tags [c] = some c := by
  rcases get_last_tag_mem_cases tags c hmem with ⟨hs, _⟩ | h
  · exfalso
    apply sort_tags_isSome (tags.filter fun u => List.contains [c] u) ?_ hs
    intro t ht
    rw [filter_single_all tags c t ht, hk]
    rfl
  · exact h

/- ================= get_next_revision lemmas ================= -/

/-- Stepping the revision loop past an occupied candidate. -/
theorem get_next_revision_loop_occupied (tags : List String) (current : String)
    (i f : Nat) (hgl : get_last_tag tags [current ++ "-" ++ Nat.repr i] =
      some (current ++ "-" ++ Nat.repr i)) :
    get_next_revision_loop tags current i (f + 1) =
      get_next_revision_loop tags current (i + 1) f := by
  simp only [get_next_revision_loop, hgl]
  rw [if_neg (candidate_ne_empty current i)]

/-- Stopping the revision loop at a free candidate. -/
theorem get_next_revision_loop_free (tags : List String) (current : String)
    (i f : Nat) (hgl : get_last_tag tags [current ++ "-" ++ Nat.repr i] = some "") :
    get_next_revision_loop tags current i (f + 1) =
      some (current ++ "-" ++ Nat.repr i) := by
  simp only [get_next_revision_loop, hgl]
  rw [if_pos trivial]

/-- Aborting the revision loop at a probe that raises. -/
theorem get_next_revision_loop_raise (tags : List String) (current : String)
    (i f : Nat) (hgl : get_last_tag tags [current ++ "-" ++ Nat.repr i] = none) :
    get_next_revision_loop tags current i (f + 1) = none := by
  simp only [get_next_revision_loop, hgl]

/-- With a well-formed key for the base tag, the revision loop finds exactly
the least free candidate index inside any window known to contain a free
candidate. -/
theorem get_next_revision_loop_spec (tags : List String) (current : String)
    (kc : List Nat) (hkc : tagKey current = some kc) :
    ∀ fuel i, 0 < i →
      (∃ j, i ≤ j ∧ j < i + fuel ∧ (current ++ "-" ++ Nat.repr j) ∉ tags) →
      ∃ k, i ≤ k ∧ (current ++ "-" ++ Nat.repr k) ∉ tags ∧
        (∀ j, i ≤ j → j < k → (current ++ "-" ++ Nat.repr j) ∈ tags) ∧
        get_next_revision_loop tags current i fuel =
          some (current ++ "-" ++ Nat.repr k) := by
  intro fuel
  induction fuel with
  | zero =>
    rintro i _ ⟨j, hj1, hj2, _⟩
    omega
  | succ f ih =>
    rintro i hi ⟨j, hj1, hj2, hj3⟩
    by_cases hc : (current ++ "-" ++ Nat.repr i) ∈ tags
    · have hkey : tagKey (current ++ "-" ++ Nat.repr i) = some (kc ++ [i]) := by
        rw [tagKey_append_repr current i, hkc]
        rfl
      have hgl := get_last_tag_mem tags (current ++ "-" ++ Nat.repr i) (kc ++ [i]) hc hkey
      have hji : j ≠ i := fun he => hj3 (he ▸ hc)
      obtain ⟨k, hk1, hk2, hk3, hk4⟩ :=
        ih (i + 1) (by omega) ⟨j, by omega, by omega, hj3⟩
      refine ⟨k, by omega, hk2, ?_, ?_⟩
      · intro j2 hj2a hj2b
        rcases Nat.eq_or_lt_of_le hj2a with he | hlt
        · exact he ▸ hc
        · exact hk3 j2 (by omega) hj2b
      · rw [get_next_revision_loop_occupied tags current i f hgl]
        exact hk4
    · have hgl := get_last_tag_not_mem tags (current ++ "-" ++ Nat.repr i) hc
      refine ⟨i, le_refl i, hc, ?_, ?_⟩
      · intro j2 hj2a hj2b
        omega
      · exact get_next_revision_loop_free tags current i f hgl

/-- Pigeonhole: among the first `tags.length + 1` candidate revision tags at
least one is not recorded. -/
theorem exists_free_candidate (tags : List String) (current : String) :
    ∃ j, 1 ≤ j ∧ j ≤ tags.length + 1 ∧ (current ++ "-" ++ Nat.repr j) ∉ tags := by
  by_contra hcon
  push_neg at hcon
  have hinj : Function.Injective fun m : Nat => current ++ "-" ++ Nat.repr (m + 1) := by
    intro a b hab
    have := candidate_inj hab
    omega
  have hnodup : ((List.range (tags.length + 1)).map
      fun m => current ++ "-" ++ Nat.repr (m + 1)).Nodup :=
    (List.nodup_range (tags.length + 1)).map hinj
  have hsub : ∀ x ∈ (List.range (tags.length + 1)).map
      (fun m => current ++ "-" ++ Nat.repr (m + 1)), x ∈ tags := by
    intro x hx
    obtain ⟨m, hm, rfl⟩ := List.mem_map.1 hx
    rw [List.mem_range] at hm
    exact hcon (m + 1) (by omega) (by omega)
  have hcard1 : ((List.range (tags.length + 1)).map
      (fun m => current ++ "-" ++ Nat.repr (m + 1))).toFinset.card = tags.length + 1 := by
    rw [List.toFinset_card_of_nodup hnodup, List.length_map, List.length_range]
  have hle : ((List.range (tags.length + 1)).map
      (fun m => current ++ "-" ++ Nat.repr (m + 1))).toFinset ⊆ tags.toFinset := by
    intro x hx
    rw [List.mem_toFinset] at hx ⊢
    exact hsub x hx
  have hcard2 := Finset.card_le_card hle
  have hcard3 : tags.toFinset.card ≤ tags.length := List.toFinset_card_le tags
  omega

/-- `get_next_revision` with a well-formed base key returns the candidate
with the least positive revision index not yet recorded. -/
theorem get_next_revision_spec (tags : List String) (current : String)
    (kc : List Nat) (hkc : tagKey current = some kc) :
    ∃ k, 1 ≤ k ∧ (current ++ "-" ++ Nat.repr k) ∉ tags ∧
      (∀ j, 1 ≤ j → j < k → (current ++ "-" ++ Nat.repr j) ∈ tags) ∧
      get_next_revision tags current = some (current ++ "-" ++ Nat.repr k) := by
  obtain ⟨j, hj1, hj2, hj3⟩ := exists_free_candidate tags current
  obtain ⟨k, hk1, hk2, hk3, hk4⟩ :=
    get_next_revision_loop_spec tags current kc hkc (tags.length + 1) 1 (by omega)
      ⟨j, hj1, by omega, hj3⟩
  exact ⟨k, hk1, hk2, hk3, hk4⟩

/-- The revision loop always halts inside a window containing a free
candidate: it either returns a tag or propagates a failed probe. -/
theorem get_next_revision_loop_halts (tags : List String) (current : String) :
    ∀ fuel i, 0 < i →
      (∃ j, i ≤ j ∧ j < i + fuel ∧ (current ++ "-" ++ Nat.repr j) ∉ tags) →
      (∃ s, get_next_revision_loop tags current i fuel = some s) ∨
      (∃ i2, i ≤ i2 ∧ get_last_tag tags [current ++ "-" ++ Nat.repr i2] = none ∧
        get_next_revision_loop tags current i fuel = none) := by
  intro fuel
  induction fuel with
  | zero =>
    rintro i _ ⟨j, hj1, hj2, _⟩
    omega
  | succ f ih =>
    rintro i hi ⟨j, hj1, hj2, hj3⟩
    by_cases hc : (current ++ "-" ++ Nat.repr i) ∈ tags
    · have hji : j ≠ i := fun he => hj3 (he ▸ hc)
      rcases get_last_tag_mem_cases tags (current ++ "-" ++ Nat.repr i) hc with
        ⟨_, hnone⟩ | hsome
      · exact Or.inr ⟨i, le_refl i, hnone,
          get_next_revision_loop_raise tags current i f hnone⟩
      · rcases ih (i + 1) (by omega) ⟨j, by omega, by omega, hj3⟩ with
          ⟨s, hls⟩ | ⟨i2, hi2a, hi2b, hi2c⟩
        · exact Or.inl ⟨s, by
            rw [get_next_revision_loop_occupied tags current i f hsome]
            exact hls⟩
        · exact Or.inr ⟨i2, by omega, hi2b, by
            rw [get_next_revision_loop_occupied tags current i f hsome]
            exact hi2c⟩
    · exact Or.inl ⟨current ++ "-" ++ Nat.repr i,
        get_next_revision_loop_free tags current i f
          (get_last_tag_not_mem tags (current ++ "-" ++ Nat.repr i) hc)⟩

/- ================= generate_version_code lemmas ================= -/

theorem pad2_digits (n : Nat) : ∀ c ∈ pad2 n, c.isDigit = true := by
  unfold pad2
  rw [repr_data]
  intro c hc
  split at hc
  · rcases List.mem_cons.1 hc with h1 | h1
    · subst h1; decide
    · exact natDigits_all_isDigit n c h1
  · exact natDigits_all_isDigit n c hc

theorem pad2_ne_nil (n : Nat) : pad2 n ≠ [] := by
  unfold pad2
  rw [repr_data]
  split
  · simp
  · exact natDigits_ne_nil n

theorem pad2_foldl {n : Nat} (h : n < 100) (a : Nat) :
    (pad2 n).foldl (fun m c => m * 10 + (c.toNat - '0'.toNat)) a = a * 100 + n := by
  unfold pad2
  rw [repr_data]
  by_cases h10 : n < 10
  · rw [if_pos (by rw [natDigits_length_lt_ten h10]; omega)]
    rw [List.foldl_cons]
    rw [show a * 10 + ('0'.toNat - '0'.toNat) = a * 10 from rfl]
    rw [natDigits_foldl n (a * 10), natDigits_length_lt_ten h10]
    simp only [pow_one]
    omega
  · rw [if_neg (by rw [natDigits_length_lt_hundred (by omega) h]; omega)]
    rw [natDigits_foldl n a, natDigits_length_lt_hundred (by omega) h]
    norm_num

theorem pyIntChars_some_parts {l : List Char} {v : Nat} (h : pyIntChars l = some v) :
    (!l.isEmpty && l.all fun c => c.isDigit) = true ∧
    l.foldl (fun n c => n * 10 + (c.toNat - '0'.toNat)) 0 = v := by
  unfold pyIntChars at h
  by_cases hc : (!l.isEmpty && l.all fun c => c.isDigit) = true
  · rw [if_pos hc] at h
    exact ⟨hc, Option.some.inj h⟩
  · rw [if_neg hc] at h
    cases h

theorem pyIntChars_make {l : List Char}
    (hc : (!l.isEmpty && l.all fun c => c.isDigit) = true) :
    pyIntChars l = some (l.foldl (fun n c => n * 10 + (c.toNat - '0'.toNat)) 0) := by
  unfold pyIntChars
  rw [if_pos hc]

theorem pyIntChars_append_pad2 {acc : List Char} {v p : Nat}
    (hacc : pyIntChars acc = some v) (hp : p < 100) :
    pyIntChars (acc ++ pad2 p) = some (v * 100 + p) := by
  obtain ⟨hcond, hval⟩ := pyIntChars_some_parts hacc
  rw [Bool.and_eq_true] at hcond
  have hcond2 : (!(acc ++ pad2 p).isEmpty &&
      (acc ++ pad2 p).all fun c => c.isDigit) = true := by
    rw [Bool.and_eq_true]
    refine ⟨?_, ?_⟩
    · have haccne : acc ≠ [] := by
        have h1 := hcond.1
        simp [List.isEmpty_iff] at h1
        exact h1
      simp [List.isEmpty_iff, List.append_eq_nil, haccne]
    · rw [List.all_append, Bool.and_eq_true]
      refine ⟨hcond.2, ?_⟩
      rw [List.all_eq_true]
      exact pad2_digits p
  rw [pyIntChars_make hcond2, List.foldl_append, hval, pad2_foldl hp v]

/-- With every component below 100, the digit-join of `generate_version_code`
computes the base-100 fold of the components. -/
theorem join_code : ∀ (parts : List Nat) (acc : List Char) (v : Nat),
    pyIntChars acc = some v → (∀ n ∈ parts, n < 100) →
    pyIntChars (parts.foldl (fun a n => a ++ pad2 n) acc) =
      some (parts.foldl (fun a n => a * 100 + n) v) := by
  intro parts
  induction parts with
  | nil => intro acc v h _; exact h
  | cons p ps ih =>
    intro acc v h hlt
    rw [List.foldl_cons, List.foldl_cons]
    exact ih (acc ++ pad2 p) (v * 100 + p)
      (pyIntChars_append_pad2 h (hlt p (List.mem_cons_self p ps)))
      fun n hn => hlt n (List.mem_cons_of_mem p hn)

theorem mapM_length_option {α β : Type} (f : α → Option β) :
    ∀ (l : List α) (ys : List β), l.mapM f = some ys → ys.length = l.length := by
  intro l
  induction l with
  | nil =>
    intro ys h
    rw [List.mapM_nil] at h
    cases h
    rfl
  | cons x xs ih =>
    intro ys h
    rw [List.mapM_cons] at h
    cases hx : f x with
    | none => rw [hx] at h; cases h
    | some y =>
      rw [hx] at h
      cases hrest : xs.mapM f with
      | none => rw [hrest] at h; cases h
      | some rest =>
        rw [hrest] at h
        cases h
        simp [ih rest hrest]

/-- The general behavior of `generate_version_code` on tags whose components
are all numeric and below 100: the components are packed in base 100. -/
theorem generate_version_code_spec (tag : String) (parts : List Nat)
    (hp : (pySplit isSepChar tag.data).mapM pyIntChars = some parts)
    (hlt : ∀ n ∈ parts, n < 100) :
    generate_version_code tag = some (parts.foldl (fun a n => a * 100 + n) 0) := by
  unfold generate_version_code
  rw [hp]
  have hne : parts ≠ [] := by
    intro hnil
    subst hnil
    have hlen := mapM_length_option pyIntChars (pySplit isSepChar tag.data) [] hp
    have := pySplit_ne_nil isSepChar tag.data
    cases hsp : pySplit isSepChar tag.data with
    | nil => exact this hsp
    | cons a as => rw [hsp] at hlen; cases hlen
  obtain ⟨p, ps, rfl⟩ := List.exists_cons_of_ne_nil hne
  show pyIntChars ((p :: ps).foldl (fun acc n => acc ++ pad2 n) []) = _
  rw [List.foldl_cons, List.foldl_cons, List.nil_append]
  have hplt : p < 100 := hlt p (List.mem_cons_self p ps)
  have h0 : pyIntChars (pad2 p) = some p := by
    have hcond : (!(pad2 p).isEmpty && (pad2 p).all fun c => c.isDigit) = true := by
      rw [Bool.and_eq_true]
      refine ⟨?_, ?_⟩
      · simp [List.isEmpty_iff, pad2_ne_nil p]
      · rw [List.all_eq_true]
        exact pad2_digits p
    rw [pyIntChars_make hcond, pad2_foldl hplt 0]
    norm_num
  have : (0 : Nat) * 100 + p = p := by omega
  rw [this]
  exact join_code ps (pad2 p) p h0 fun n hn => hlt n (List.mem_cons_of_mem p hn)

/- ================= strip_revision lemma ================= -/

theorem takeWhile_idem (p : Char → Bool) :
    ∀ l : List Char, (l.takeWhile p).takeWhile p = l.takeWhile p := by
  intro l
  induction l with
  | nil => rfl
  | cons c cs ih =>
    cases hc : p c with
    | false => simp [List.takeWhile_cons, hc]
    | true => simp [List.takeWhile_cons, hc, ih]

/- ================= build model lemmas ================= -/

/-- A fill task never removes a staged server. -/
theorem fill_module_staged_mono (fs : BuildFS) (arch x : String) (res : FillResult)
    (hx : x ∈ fs.stagedServers) : x ∈ (fill_module fs arch res).stagedServers := by
  cases res with
  | ok => exact List.mem_insert_of_mem hx
  | downloadFailed m => exact hx
  | extractFailed m => exact hx

/-- A fill task never removes a cached archive. -/
theorem fill_module_cached_mono (fs : BuildFS) (arch x : String) (res : FillResult)
    (hx : x ∈ fs.cachedArchives) : x ∈ (fill_module fs arch res).cachedArchives := by
  cases res with
  | ok => exact List.mem_insert_of_mem hx
  | downloadFailed m => exact hx
  | extractFailed m => exact List.mem_insert_of_mem hx

/-- Fill tasks touch only the staging files and the download cache. -/
theorem fill_module_keeps (fs : BuildFS) (arch : String) (res : FillResult) :
    (fill_module fs arch res).packagedZips = fs.packagedZips ∧
    (fill_module fs arch res).updaterJson = fs.updaterJson ∧
    (fill_module fs arch res).tmpExists = fs.tmpExists := by
  cases res <;> exact ⟨rfl, rfl, rfl⟩

theorem fill_foldl_keeps (outcomes : String → FillResult) :
    ∀ (l : List String) (fs : BuildFS),
      (l.foldl (fun s a => fill_module s a (outcomes a)) fs).packagedZips =
        fs.packagedZips ∧
      (l.foldl (fun s a => fill_module s a (outcomes a)) fs).updaterJson =
        fs.updaterJson ∧
      (l.foldl (fun s a => fill_module s a (outcomes a)) fs).tmpExists =
        fs.tmpExists := by
  intro l
  induction l with
  | nil => intro fs; exact ⟨rfl, rfl, rfl⟩
  | cons b bs ih =>
    intro fs
    rw [List.foldl_cons]
    obtain ⟨h1, h2, h3⟩ := ih (fill_module fs b (outcomes b))
    obtain ⟨k1, k2, k3⟩ := fill_module_keeps fs b (outcomes b)
    exact ⟨h1.trans k1, h2.trans k2, h3.trans k3⟩

theorem fill_foldl_staged_mono (outcomes : String → FillResult) :
    ∀ (l : List String) (fs : BuildFS) (x : String),
      x ∈ fs.stagedServers →
      x ∈ (l.foldl (fun s a => fill_module s a (outcomes a)) fs).stagedServers := by
  intro l
  induction l with
  | nil => intro fs x hx; exact hx
  | cons b bs ih =>
    intro fs x hx
    rw [List.foldl_cons]
    exact ih (fill_module fs b (outcomes b)) x
      (fill_module_staged_mono fs b x (outcomes b) hx)

theorem fill_foldl_cached_mono (outcomes : String → FillResult) :
    ∀ (l : List String) (fs : BuildFS) (x : String),
      x ∈ fs.cachedArchives →
      x ∈ (l.foldl (fun s a => fill_module s a (outcomes a)) fs).cachedArchives := by
  intro l
  induction l with
  | nil => intro fs x hx; exact hx
  | cons b bs ih =>
    intro fs x hx
    rw [List.foldl_cons]
    exact ih (fill_module fs b (outcomes b)) x
      (fill_module_cached_mono fs b x (outcomes b) hx)

/-- A successful task's server lands in the staging tree. -/
theorem fill_foldl_staged (outcomes : String → FillResult) :
    ∀ (l : List String) (fs : BuildFS) (a : String),
      a ∈ l → outcomes a = FillResult.ok →
      a ∈ (l.foldl (fun s x => fill_module s x (outcomes x)) fs).stagedServers := by
  intro l
  induction l with
  | nil => intro fs a ha; cases ha
  | cons b bs ih =>
    intro fs a ha hok
    rw [List.foldl_cons]
    rcases List.mem_cons.1 ha with he | hm
    · subst he
      apply fill_foldl_staged_mono
      rw [hok]
      exact List.mem_insert_self a fs.stagedServers
    · exact ih (fill_module fs b (outcomes b)) a hm hok

/-- A task that got past its download leaves the archive cached. -/
theorem fill_foldl_cached (outcomes : String → FillResult) :
    ∀ (l : List String) (fs : BuildFS) (a : String),
      a ∈ l →
      (outcomes a = FillResult.ok ∨ ∃ m, outcomes a = FillResult.extractFailed m) →
      a ∈ (l.foldl (fun s x => fill_module s x (outcomes x)) fs).cachedArchives := by
  intro l
  induction l with
  | nil => intro fs a ha; cases ha
  | cons b bs ih =>
    intro fs a ha hok
    rw [List.foldl_cons]
    rcases List.mem_cons.1 ha with he | hm
    · subst he
      apply fill_foldl_cached_mono
      rcases hok with hok | ⟨m, hok⟩
      · rw [hok]
        exact List.mem_insert_self a fs.cachedArchives
      · rw [hok]
        exact List.mem_insert_self a fs.cachedArchives
    · exact ih (fill_module fs b (outcomes b)) a hm hok

/-- The completion-order scan surfaces a failing task's own exception
whenever some task in the scanned list failed. -/
theorem firstFailure_spec (outcomes : String → FillResult) :
    ∀ order : List String,
      (∃ a ∈ order, fillErr (outcomes a) ≠ none) →
      ∃ a ∈ order, fillErr (outcomes a) ≠ none ∧
        firstFailure outcomes order = fillErr (outcomes a) := by
  intro order
  induction order with
  | nil => rintro ⟨a, ha, _⟩; cases ha
  | cons b rest ih =>
    rintro ⟨a, ha, hne⟩
    cases hb : fillErr (outcomes b) with
    | some m =>
      refine ⟨b, List.mem_cons_self b rest, by rw [hb]; simp, ?_⟩
      rw [firstFailure, hb]
    | none =>
      have ha2 : a ∈ rest := by
        rcases List.mem_cons.1 ha with he | hm
        · subst he; exact absurd hb hne
        · exact hm
      obtain ⟨a2, ha2m, ha2ne, ha2eq⟩ := ih ⟨a, ha2, hne⟩
      refine ⟨a2, List.mem_cons_of_mem b ha2m, ha2ne, ?_⟩
      rw [firstFailure, hb]
      exact ha2eq

/- ================= claim theorems ================= -/

/-- C9: for every version string (indeed for every string at all),
`strip_revision` is idempotent:
`strip_revision (strip_revision v) = strip_revision v`. -/
theorem claim_strip_revision_idempotent :
    ∀ v : String, strip_revision (strip_revision v) = strip_revision v := by
  intro v
  show String.mk ((v.data.takeWhile fun c => c != '-').takeWhile fun c => c != '-') =
    String.mk (v.data.takeWhile fun c => c != '-')
  rw [takeWhile_idem]

/-- C2: for every local tag list and every base tag with numeric components
(the `VersionTag` invariant of the data model), `get_next_revision` returns
the base tag with `-k` appended, where `k` is the least positive integer
whose candidate is not recorded; in particular it yields `16.1.4-1` for an
empty tag set and `16.1.4-3` when `16.1.4-1` and `16.1.4-2` are taken. -/
theorem claim_next_revision :
    (∀ (tags : List String) (base : String) (kb : List Nat),
      tagKey base = some kb →
      ∃ k, 1 ≤ k ∧
        get_next_revision tags base = some (base ++ "-" ++ Nat.repr k) ∧
        (base ++ "-" ++ Nat.repr k) ∉ tags ∧
        ∀ j, 1 ≤ j → j < k → (base ++ "-" ++ Nat.repr j) ∈ tags) ∧
    get_next_revision [] "16.1.4" = some "16.1.4-1" ∧
    get_next_revision ["16.1.4-1", "16.1.4-2"] "16.1.4" = some "16.1.4-3" := by
  refine ⟨?_, by decide, by decide⟩
  intro tags base kb hkb
  obtain ⟨k, h1, h2, h3, h4⟩ := get_next_revision_spec tags base kb hkb
  exact ⟨k, h1, h4, h2, h3⟩

/-- Witness for C2 at a concrete input. -/
theorem claim_next_revision_witness :
    ∃ k, 1 ≤ k ∧
      get_next_revision ["16.1.4-1"] "16.1.4" = some ("16.1.4" ++ "-" ++ Nat.repr k) ∧
      ("16.1.4" ++ "-" ++ Nat.repr k) ∉ ["16.1.4-1"] ∧
      ∀ j, 1 ≤ j → j < k → ("16.1.4" ++ "-" ++ Nat.repr j) ∈ ["16.1.4-1"] :=
  claim_next_revision.1 ["16.1.4-1"] "16.1.4" [16, 1, 4] (by decide)

/-- C3 (amended): `get_next_revision` halts on every input — within
`tags.length + 1` probes it either returns a free candidate tag or
propagates an exception from a probe — but the source contains no explicit
upper bound and no `RevisionExhausted` failure mode. -/
theorem claim_next_revision_terminates :
    ∀ (tags : List String) (current_tag : String),
      (∃ s, get_next_revision tags current_tag = some s) ∨
      (∃ i, 1 ≤ i ∧
        get_last_tag tags [current_tag ++ "-" ++ Nat.repr i] = none ∧
        get_next_revision tags current_tag = none) := by
  intro tags current_tag
  obtain ⟨j, hj1, hj2, hj3⟩ := exists_free_candidate tags current_tag
  exact get_next_revision_loop_halts tags current_tag (tags.length + 1) 1 (by omega)
    ⟨j, hj1, by omega, hj3⟩

/-- C3 (counterexample to the claim as stated): with the first 10,000
revisions of `16.1.4` all recorded, the search does not fail at the claimed
bound of 10,000: it runs past it and returns `16.1.4-10001` normally —
there is no `RevisionExhausted` outcome in the code. -/
theorem claim_next_revision_counterexample :
    get_next_revision
      ((List.range 10000).map fun m => "16.1.4" ++ "-" ++ Nat.repr (m + 1))
      "16.1.4" = some ("16.1.4" ++ "-" ++ Nat.repr 10001) := by
  obtain ⟨k, hk1, hk2, hk3, hk4⟩ := get_next_revision_spec
    ((List.range 10000).map fun m => "16.1.4" ++ "-" ++ Nat.repr (m + 1))
    "16.1.4" [16, 1, 4] (by decide)
  have hmem : ∀ j, 1 ≤ j → j ≤ 10000 →
      ("16.1.4" ++ "-" ++ Nat.repr j) ∈
        (List.range 10000).map fun m => "16.1.4" ++ "-" ++ Nat.repr (m + 1) := by
    intro j h1 h2
    exact List.mem_map.2 ⟨j - 1, List.mem_range.2 (by omega),
      by rw [show j - 1 + 1 = j from by omega]⟩
  have hnotmem : ("16.1.4" ++ "-" ++ Nat.repr 10001) ∉
      (List.range 10000).map fun m => "16.1.4" ++ "-" ++ Nat.repr (m + 1) := by
    intro hc
    obtain ⟨m, hm, he⟩ := List.mem_map.1 hc
    have := candidate_inj he
    rw [List.mem_range] at hm
    omega
  have hkval : k = 10001 := by
    rcases Nat.lt_trichotomy k 10001 with hlt | he | hgt
    · exact absurd (hmem k hk1 (by omega)) hk2
    · exact he
    · exact absurd (hk3 10001 (by omega) hgt) hnotmem
  rw [hkval] at hk4
  exact hk4

/-- C5: `generate_version_code` splits the tag on dots and dashes,
zero-pads each component to two digits, joins and parses: on components
below 100 this packs them in base 100; `16.1.4` gives 160104 and `1.2.33`
gives 10233, the integer Python parses from the string `010233`. -/
theorem claim_version_code :
    (∀ (tag : String) (parts : List Nat),
      (pySplit isSepChar tag.data).mapM pyIntChars = some parts →
      (∀ n ∈ parts, n < 100) →
      generate_version_code tag = some (parts.foldl (fun a n => a * 100 + n) 0)) ∧
    generate_version_code "16.1.4" = some 160104 ∧
    generate_version_code "1.2.33" = some 10233 :=
  ⟨generate_version_code_spec, by decide, by decide⟩

/-- Witness for C5 at a concrete input. -/
theorem claim_version_code_witness :
    generate_version_code "2.0.1" = some ([2, 0, 1].foldl (fun a n => a * 100 + n) 0) :=
  claim_version_code.1 "2.0.1" [2, 0, 1] (by decide) (by decide)

/-- C8 (counterexample to the claim as stated): a `git` process that runs
but exits nonzero with empty output — the repository cannot be queried — is
not detected: `get_last_tag` silently reports the normal no-tags result
`""` instead of failing. -/
theorem claim_git_error_counterexample :
    get_last_tag_exec (fun _ => Except.ok { returncode := 128, stdout := "" }) [] =
      Except.ok "" := rfl

/-- C8 (amended): an exception raised while launching `git` (for example a
missing binary) does propagate fatally and is never locally recovered; but
the exit code of a completed `git` process is never consulted — the result
depends only on captured standard output, so a failed query that produced
no output is silently converted into the normal empty-string result. -/
theorem claim_git_error_amended :
    (∀ (run : GitRunner) (filter_args : List String) (e : String),
      run (["tag", "-l"] ++ filter_args) = Except.error e →
      get_last_tag_exec run filter_args = Except.error e) ∧
    (∀ (run1 run2 : GitRunner) (filter_args : List String),
      (∀ args, (run1 args).map CompletedProcess.stdout =
        (run2 args).map CompletedProcess.stdout) →
      get_last_tag_exec run1 filter_args = get_last_tag_exec run2 filter_args) := by
  constructor
  · intro run f e h
    unfold get_last_tag_exec exec_git_command
    rw [h]
    rfl
  · intro run1 run2 f h
    unfold get_last_tag_exec exec_git_command
    rw [h (["tag", "-l"] ++ f)]

/-- Witness for C8's amended theorem at a concrete input. -/
theorem claim_git_error_amended_witness :
    get_last_tag_exec (fun _ => Except.error "FileNotFoundError") [] =
      Except.error "FileNotFoundError" :=
  claim_git_error_amended.1 (fun _ => Except.error "FileNotFoundError") []
    "FileNotFoundError" rfl

/-- Unfolding `mainRun` with the let binding expanded. -/
theorem mainRun_eq (localTags : List String) (u l : String) (force : Bool) :
    mainRun localTags u l force =
      if (u != strip_revision l) || force then
        (get_next_revision localTags u).map fun nt =>
          { needs_update := u != strip_revision l, new_project_tag := nt,
            marker_file := some nt }
      else some { needs_update := u != strip_revision l, new_project_tag := "0",
                  marker_file := none } := rfl

/-- C1: the decision phase reports `needs_update` exactly when the upstream
tag differs from the revision-stripped local tag; it assigns
`get_next_revision` of the upstream tag exactly when `needs_update` or the
force flag holds and otherwise keeps the sentinel `"0"`; the spec example
`decide("16.1.4", "16.1.3-1", false)` gives `needs_update = true` and new
tag `16.1.4-1`. -/
theorem claim_release_decision :
    (∀ (localTags : List String) (upstream localTag : String) (force : Bool),
      (∀ r, mainRun localTags upstream localTag force = some r →
        r.needs_update = (upstream != strip_revision localTag)) ∧
      (((upstream != strip_revision localTag) || force) = true →
        mainRun localTags upstream localTag force =
          (get_next_revision localTags upstream).map fun nt =>
            { needs_update := upstream != strip_revision localTag,
              new_project_tag := nt, marker_file := some nt }) ∧
      (((upstream != strip_revision localTag) || force) = false →
        mainRun localTags upstream localTag force =
          some { needs_update := false, new_project_tag := "0",
                 marker_file := none })) ∧
    mainRun ["16.1.3-1"] "16.1.4" "16.1.3-1" false =
      some { needs_update := true, new_project_tag := "16.1.4-1",
             marker_file := some "16.1.4-1" } := by
  refine ⟨?_, by decide⟩
  intro localTags upstream localTag force
  refine ⟨?_, ?_, ?_⟩
  · intro r hr
    rw [mainRun_eq] at hr
    cases hb : (upstream != strip_revision localTag) || force with
    | true =>
      rw [hb, if_pos rfl] at hr
      cases hg : get_next_revision localTags upstream with
      | none => rw [hg] at hr; cases hr
      | some nt =>
        rw [hg] at hr
        have := Option.some.inj hr
        rw [← this]
    | false =>
      rw [hb, if_neg (by simp)] at hr
      have := Option.some.inj hr
      rw [← this]
  · intro hb
    rw [mainRun_eq, hb, if_pos rfl]
  · intro hb
    rw [mainRun_eq, hb, if_neg (by simp)]
    have hn : (upstream != strip_revision localTag) = false :=
      (Bool.or_eq_false_iff.1 hb).1
    rw [hn]

/-- Witness for C1 at a concrete input: a forced run with the local base
version already current still computes the next revision (the spec's third
decide example). -/
theorem claim_release_decision_witness :
    mainRun ["16.1.4-1"] "16.1.4" "16.1.4-1" true =
      (get_next_revision ["16.1.4-1"] "16.1.4").map fun nt =>
        { needs_update := "16.1.4" != strip_revision "16.1.4-1",
          new_project_tag := nt, marker_file := some nt } :=
  ((claim_release_decision.1 ["16.1.4-1"] "16.1.4" "16.1.4-1" true).2.1 (by decide))

/-- C7: in every completed run, the marker file `NEW_TAG.txt` is written
exactly when a release is warranted (`needs_update` or force flag), and
when written it contains exactly the newly decided tag; in a run where no
release is warranted the marker is left untouched — the decision phase's
only filesystem effect is this single optional write, as captured by the
`marker_file` field of the run outcome. -/
theorem claim_marker_file :
    ∀ (localTags : List String) (upstream localTag : String) (force : Bool)
      (r : MainRun),
      mainRun localTags upstream localTag force = some r →
      (r.marker_file.isSome = true ↔
        ((upstream != strip_revision localTag) || force) = true) ∧
      (∀ t, r.marker_file = some t →
        t = r.new_project_tag ∧ get_next_revision localTags upstream = some t) := by
  intro localTags upstream localTag force r hr
  rw [mainRun_eq] at hr
  cases hb : (upstream != strip_revision localTag) || force with
  | true =>
    rw [hb, if_pos rfl] at hr
    cases hg : get_next_revision localTags upstream with
    | none => rw [hg] at hr; cases hr
    | some nt =>
      rw [hg] at hr
      have := Option.some.inj hr
      rw [← this]
      refine ⟨by simp, ?_⟩
      intro t ht
      have : t = nt := (Option.some.inj ht).symm
      subst this
      exact ⟨rfl, rfl⟩
  | false =>
    rw [hb, if_neg (by simp)] at hr
    have := Option.some.inj hr
    rw [← this]
    refine ⟨by simp, ?_⟩
    intro t ht
    cases ht

/-- Witness for C7 at a concrete input. -/
theorem claim_marker_file_witness :
    ((({ needs_update := false, new_project_tag := "16.1.4-2",
         marker_file := some "16.1.4-2" } : MainRun).marker_file).isSome = true ↔
      (("16.1.4" != strip_revision "16.1.4-1") || true) = true) ∧
    (∀ t, ({ needs_update := false, new_project_tag := "16.1.4-2",
             marker_file := some "16.1.4-2" } : MainRun).marker_file = some t →
      t = ({ needs_update := false, new_project_tag := "16.1.4-2",
             marker_file := some "16.1.4-2" } : MainRun).new_project_tag ∧
      get_next_revision ["16.1.4-1"] "16.1.4" = some t) :=
  claim_marker_file ["16.1.4-1"] "16.1.4" "16.1.4-1" true
    { needs_update := false, new_project_tag := "16.1.4-2",
      marker_file := some "16.1.4-2" } (by decide)

/-- C10: when the local repository has no matching tag (`get_last_tag`
reported the empty string), `strip_revision` of the empty string is the
empty string, so every completed run against a nonempty upstream tag
reports `needs_update = true`. -/
theorem claim_empty_local_tag :
    strip_revision "" = "" ∧
    ∀ (localTags : List String) (upstream : String) (force : Bool) (r : MainRun),
      upstream ≠ "" →
      mainRun localTags upstream "" force = some r →
      r.needs_update = true := by
  refine ⟨rfl, ?_⟩
  intro localTags upstream force r hne hr
  rw [mainRun_eq] at hr
  have hb : (upstream != strip_revision "") = true := by
    rw [show strip_revision "" = "" from rfl, bne_iff_ne]
    exact hne
  rw [hb, Bool.true_or, if_pos rfl] at hr
  cases hg : get_next_revision localTags upstream with
  | none => rw [hg] at hr; cases hr
  | some nt =>
    rw [hg] at hr
    have := Option.some.inj hr
    rw [← this]

/-- Witness for C10 at a concrete input. -/
theorem claim_empty_local_tag_witness :
    ({ needs_update := true, new_project_tag := "16.1.4-1",
       marker_file := some "16.1.4-1" } : MainRun).needs_update = true :=
  claim_empty_local_tag.2 [] "16.1.4" false
    { needs_update := true, new_project_tag := "16.1.4-1",
      marker_file := some "16.1.4-1" } (by decide) (by decide)

/-- C4: on tag lists whose components are all numeric, `sort_tags` succeeds
and returns a permutation of its input that is ordered by left-to-right
numeric comparison of the dot/dash-separated components; in particular
`{"1.2", "1.10", "1.9"}` sorts to `["1.2", "1.9", "1.10"]`, not the
lexicographic string order. -/
theorem claim_sort_versions :
    (∀ tags : List String, (∀ t ∈ tags, (tagKey t).isSome = true) →
      ∃ sorted, sort_tags tags = some sorted ∧ sorted.Perm tags ∧
        sorted.Pairwise fun s t => ∀ ks kt, tagKey s = some ks →
          tagKey t = some kt → keyLE ks kt = true) ∧
    sort_tags ["1.2", "1.10", "1.9"] = some ["1.2", "1.9", "1.10"] := by
  refine ⟨?_, by decide⟩
  intro tags hkeys
  obtain ⟨pairs, hp⟩ := mapM_pairs_total tags (fun t ht => hkeys t ht)
  obtain ⟨hfst, hkeyp⟩ := mapM_pairs_fst tags pairs hp
  refine ⟨(pairs.insertionSort pairLE).map Prod.fst, ?_, ?_, ?_⟩
  · unfold sort_tags
    rw [hp]
    rfl
  · have hperm := List.perm_insertionSort pairLE pairs
    have hmap := hperm.map Prod.fst
    rwa [hfst] at hmap
  · have hsorted : List.Sorted pairLE (pairs.insertionSort pairLE) :=
      List.sorted_insertionSort pairLE pairs
    have hsorted2 : (pairs.insertionSort pairLE).Pairwise
        (fun a b => ∀ ks kt, tagKey a.1 = some ks → tagKey b.1 = some kt →
          keyLE ks kt = true) := by
      refine List.Pairwise.imp_of_mem ?_ hsorted
      intro a b ha hb hab ks kt hks hkt
      have ha2 := hkeyp a ((List.mem_insertionSort pairLE).1 ha)
      have hb2 := hkeyp b ((List.mem_insertionSort pairLE).1 hb)
      rw [hks] at ha2
      rw [hkt] at hb2
      have hks2 : ks = a.2 := Option.some.inj ha2
      have hkt2 : kt = b.2 := Option.some.inj hb2
      rw [hks2, hkt2]
      exact hab
    rw [List.pairwise_map]
    exact hsorted2

/-- Witness for C4 at a concrete input. -/
theorem claim_sort_versions_witness :
    ∃ sorted, sort_tags ["2.1", "2.0-1"] = some sorted ∧
      sorted.Perm ["2.1", "2.0-1"] ∧
      sorted.Pairwise fun s t => ∀ ks kt, tagKey s = some ks →
        tagKey t = some kt → keyLE ks kt = true :=
  claim_sort_versions.1 ["2.1", "2.0-1"] (by decide)

theorem fillErr_ne_none {r : FillResult} (h : r ≠ FillResult.ok) :
    fillErr r ≠ none := by
  cases r with
  | ok => exact absurd rfl h
  | downloadFailed m => simp [fillErr]
  | extractFailed m => simp [fillErr]

/-- C6: whenever the per-architecture outcomes include a failure (and the
module skeleton itself could be stamped), the build aborts surfacing that
task's own exception: no zip is packaged and no `updater.json` is written
(both fields keep whatever the filesystem held before), while the partial
results stay on disk — the staging tree still exists, every successful
task's server file is staged, and every task that got past its download
left its archive in the cache. -/
theorem claim_build_failure :
    ∀ (outcomes : String → FillResult) (completionOrder : List String)
      (project_tag : String) (fs : BuildFS),
      completionOrder.Perm archs →
      (generate_version_code project_tag).isSome = true →
      (∃ a ∈ archs, outcomes a ≠ FillResult.ok) →
      (∃ a ∈ archs, outcomes a ≠ FillResult.ok ∧
        (do_build outcomes completionOrder project_tag fs).2 = fillErr (outcomes a)) ∧
      (do_build outcomes completionOrder project_tag fs).2 ≠ none ∧
      (do_build outcomes completionOrder project_tag fs).1.packagedZips =
        fs.packagedZips ∧
      (do_build outcomes completionOrder project_tag fs).1.updaterJson =
        fs.updaterJson ∧
      (do_build outcomes completionOrder project_tag fs).1.tmpExists = true ∧
      (∀ a ∈ archs, outcomes a = FillResult.ok →
        a ∈ (do_build outcomes completionOrder project_tag fs).1.stagedServers) ∧
      (∀ a ∈ archs, (outcomes a = FillResult.ok ∨
          ∃ m, outcomes a = FillResult.extractFailed m) →
        a ∈ (do_build outcomes completionOrder project_tag fs).1.cachedArchives) := by
  intro outcomes order tag fs hperm hgen hex
  obtain ⟨code, hcode⟩ := Option.isSome_iff_exists.1 hgen
  have hfail : ∃ a ∈ order, fillErr (outcomes a) ≠ none := by
    obtain ⟨a, ha, hne⟩ := hex
    exact ⟨a, hperm.mem_iff.2 ha, fillErr_ne_none hne⟩
  obtain ⟨a0, ha0, ha0ne, ha0eq⟩ := firstFailure_spec outcomes order hfail
  obtain ⟨m0, hm0⟩ := Option.ne_none_iff_exists'.1 ha0ne
  have hdb : do_build outcomes order tag fs =
      (archs.foldl (fun s a => fill_module s a (outcomes a))
        { fs with downloadsDirExists := true, buildDirExists := true,
                  tmpExists := true, stagedServers := [],
                  modulePropStamp := some (tag, code) }, some m0) := by
    unfold do_build
    rw [hcode, ha0eq, hm0]
  obtain ⟨hK1, hK2, hK3⟩ := fill_foldl_keeps outcomes archs
    { fs with downloadsDirExists := true, buildDirExists := true,
              tmpExists := true, stagedServers := [],
              modulePropStamp := some (tag, code) }
  rw [hdb]
  refine ⟨⟨a0, hperm.mem_iff.1 ha0, ?_, ?_⟩, by simp, hK1, hK2, hK3, ?_, ?_⟩
  · intro hcontra
    rw [hcontra] at ha0ne
    exact ha0ne rfl
  · rw [hm0]
  · intro a ha hok
    exact fill_foldl_staged outcomes archs _ a ha hok
  · intro a ha hok
    exact fill_foldl_cached outcomes archs _ a ha hok

/-- Witness for C6 at a concrete input: the x86 extraction fails. -/
theorem claim_build_failure_witness :
    (∃ a ∈ archs,
      (fun a => if a = "x86" then FillResult.extractFailed "boom" else FillResult.ok)
        a ≠ FillResult.ok ∧
      (do_build
        (fun a => if a = "x86" then FillResult.extractFailed "boom" else FillResult.ok)
        archs "16.1.4-1"
        { downloadsDirExists := false, buildDirExists := false, tmpExists := false,
          stagedServers := [], modulePropStamp := none, cachedArchives := [],
          packagedZips := [], updaterJson := none }).2 =
        fillErr ((fun a => if a = "x86" then FillResult.extractFailed "boom"
          else FillResult.ok) a)) ∧
    (do_build
      (fun a => if a = "x86" then FillResult.extractFailed "boom" else FillResult.ok)
      archs "16.1.4-1"
      { downloadsDirExists := false, buildDirExists := false, tmpExists := false,
        stagedServers := [], modulePropStamp := none, cachedArchives := [],
        packagedZips := [], updaterJson := none }).2 ≠ none ∧
    (do_build
      (fun a => if a = "x86" then FillResult.extractFailed "boom" else FillResult.ok)
      archs "16.1.4-1"
      { downloadsDirExists := false, buildDirExists := false, tmpExists := false,
        stagedServers := [], modulePropStamp := none, cachedArchives := [],
        packagedZips := [], updaterJson := none }).1.packagedZips =
      ({ downloadsDirExists := false, buildDirExists := false, tmpExists := false,
         stagedServers := [], modulePropStamp := none, cachedArchives := [],
         packagedZips := [], updaterJson := none } : BuildFS).packagedZips ∧
    (do_build
      (fun a => if a = "x86" then FillResult.extractFailed "boom" else FillResult.ok)
      archs "16.1.4-1"
      { downloadsDirExists := false, buildDirExists := false, tmpExists := false,
        stagedServers := [], modulePropStamp := none, cachedArchives := [],
        packagedZips := [], updaterJson := none }).1.updaterJson =
      ({ downloadsDirExists := false, buildDirExists := false, tmpExists := false,
         stagedServers := [], modulePropStamp := none, cachedArchives := [],
         packagedZips := [], updaterJson := none } : BuildFS).updaterJson ∧
    (do_build
      (fun a => if a = "x86" then FillResult.extractFailed "boom" else FillResult.ok)
      archs "16.1.4-1"
      { downloadsDirExists := false, buildDirExists := false, tmpExists := false,
        stagedServers := [], modulePropStamp := none, cachedArchives := [],
        packagedZips := [], updaterJson := none }).1.tmpExists = true ∧
    (∀ a ∈ archs,
      (fun a => if a = "x86" then FillResult.extractFailed "boom" else FillResult.ok)
        a = FillResult.ok →
      a ∈ (do_build
        (fun a => if a = "x86" then FillResult.extractFailed "boom" else FillResult.ok)
        archs "16.1.4-1"
        { downloadsDirExists := false, buildDirExists := false, tmpExists := false,
          stagedServers := [], modulePropStamp := none, cachedArchives := [],
          packagedZips := [], updaterJson := none }).1.stagedServers) ∧
    (∀ a ∈ archs,
      ((fun a => if a = "x86" then FillResult.extractFailed "boom" else FillResult.ok)
        a = FillResult.ok ∨
        ∃ m, (fun a => if a = "x86" then FillResult.extractFailed "boom"
          else FillResult.ok) a = FillResult.extractFailed m) →
      a ∈ (do_build
        (fun a => if a = "x86" then FillResult.extractFailed "boom" else FillResult.ok)
        archs "16.1.4-1"
        { downloadsDirExists := false, buildDirExists := false, tmpExists := false,
          stagedServers := [], modulePropStamp := none, cachedArchives := [],
          packagedZips := [], updaterJson := none }).1.cachedArchives) :=
  claim_build_failure
    (fun a => if a = "x86" then FillResult.extractFailed "boom" else FillResult.ok)
    archs "16.1.4-1"
    { downloadsDirExists := false, buildDirExists := false, tmpExists := false,
      stagedServers := [], modulePropStamp := none, cachedArchives := [],
      packagedZips := [], updaterJson := none }
    (List.Perm.refl archs) (by decide) (by decide)
